import Mathlib

/-
Shallow embedding of the mod resolution and fetch core of the repository
(src/providers/mod.rs, src/providers/file.rs, src/providers/http.rs,
src/providers/modio.rs).

Conventions of the embedding:
- byte strings are lists of naturals;
- HashMap values become association lists (lookupMap, insertMap) and
  HashSet values become lists with dedup-on-insert (List.insert, List.dedup);
- async provider calls become pure functions; the network is an explicit
  oracle function passed as a parameter;
- fallible Rust code returning anyhow Result is modelled with Except String;
- loops whose termination is not guaranteed by the source (the redirect
  loop in ModStore.resolve_mod and the outer loop of ModStore.resolve_mods)
  take an explicit fuel argument; a result of none means the fuel ran out,
  which corresponds to a non-terminating run of the source.
-/

namespace Mint

/-- Byte strings (Vec of u8 in the source) are modelled as lists of naturals. -/
abbrev Bytes := List Nat

/-- Association-list lookup, modelling HashMap get. -/
def lookupMap {α β : Type} [DecidableEq α] : List (α × β) → α → Option β
  | [], _ => none
  | (k, v) :: t, a => if a = k then some v else lookupMap t a

/-- Association-list insert-or-replace, modelling HashMap insert. -/
def insertMap {α β : Type} [DecidableEq α] : List (α × β) → α → β → List (α × β)
  | [], k, v => [(k, v)]
  | (k0, v0) :: t, k, v => if k = k0 then (k, v) :: t else (k0, v0) :: insertMap t k v

/-- The keys of an association list. -/
def keysOf {α β : Type} (l : List (α × β)) : List α := l.map Prod.fst

/-- An association list is a well-formed map when its keys are distinct. -/
def keysNodup {α β : Type} (l : List (α × β)) : Prop := (keysOf l).Nodup

/-- How many entries of the association list carry the key. -/
def countKeys {α β : Type} [DecidableEq α] (l : List (α × β)) (k : α) : Nat :=
  (keysOf l).count k

theorem lookupMap_insertMap {α β : Type} [DecidableEq α] (l : List (α × β)) (k a : α) (v : β) :
    lookupMap (insertMap l k v) a = if a = k then some v else lookupMap l a := by
  induction l with
  | nil => simp [insertMap, lookupMap]
  | cons h t ih =>
    obtain ⟨k0, v0⟩ := h
    by_cases hk : k = k0
    · subst hk
      by_cases ha : a = k <;> simp [insertMap, lookupMap, ha]
    · by_cases ha : a = k0
      · subst ha
        have : ¬ a = k := fun h0 => hk h0.symm
        simp [insertMap, lookupMap, hk, this]
      · simp [insertMap, lookupMap, hk, ha, ih]

theorem lookupMap_isSome_mono {α β : Type} [DecidableEq α] (l : List (α × β)) (k a : α) (v : β)
    (h : (lookupMap l a).isSome) : (lookupMap (insertMap l k v) a).isSome := by
  rw [lookupMap_insertMap]
  by_cases ha : a = k <;> simp [ha, h]

theorem keysOf_insertMap {α β : Type} [DecidableEq α] (l : List (α × β)) (k : α) (v : β) :
    keysOf (insertMap l k v) = if k ∈ keysOf l then keysOf l else keysOf l ++ [k] := by
  induction l with
  | nil => simp [insertMap, keysOf]
  | cons h t ih =>
    obtain ⟨k0, v0⟩ := h
    by_cases hk : k = k0
    · subst hk
      simp [insertMap, keysOf]
    · have hk0 : ¬ k0 = k := fun h0 => hk h0.symm
      simp only [insertMap, if_neg hk, keysOf, List.map_cons]
      rw [show List.map Prod.fst (insertMap t k v) = keysOf (insertMap t k v) from rfl, ih]
      by_cases hmem : k ∈ keysOf t <;> simp only [keysOf] at hmem <;>
        simp [keysOf, List.mem_cons, hmem, hk]

theorem keysNodup_insertMap {α β : Type} [DecidableEq α] (l : List (α × β)) (k : α) (v : β)
    (h : keysNodup l) : keysNodup (insertMap l k v) := by
  unfold keysNodup at h ⊢
  rw [keysOf_insertMap]
  by_cases hmem : k ∈ keysOf l
  · simpa [hmem] using h
  · simp only [hmem, if_false]
    exact List.Nodup.append h (List.nodup_singleton k) (by
      intro a ha hb
      simp only [List.mem_singleton] at hb
      subst hb
      exact hmem ha)

theorem lookupMap_insertMap_self {α β : Type} [DecidableEq α] (l : List (α × β)) (k : α) (v : β) :
    lookupMap (insertMap l k v) k = some v := by
  rw [lookupMap_insertMap]
  simp

theorem insertMap_eq_self {α β : Type} [DecidableEq α] (l : List (α × β)) (k : α) (v : β)
    (h : lookupMap l k = some v) : insertMap l k v = l := by
  induction l with
  | nil => simp [lookupMap] at h
  | cons hd t ih =>
    obtain ⟨k0, v0⟩ := hd
    by_cases hk : k = k0
    · subst hk
      simp [lookupMap] at h
      simp [insertMap, h]
    · simp [lookupMap, hk] at h
      simp [insertMap, hk, ih h]

theorem mem_of_lookupMap_eq_some {α β : Type} [DecidableEq α] (l : List (α × β)) (a : α) (v : β)
    (h : lookupMap l a = some v) : (a, v) ∈ l := by
  induction l with
  | nil => simp [lookupMap] at h
  | cons hd t ih =>
    obtain ⟨k0, v0⟩ := hd
    by_cases ha : a = k0
    · subst ha
      simp [lookupMap] at h
      simp [h]
    · simp [lookupMap, ha] at h
      simp [ih h]

/-! ## Data model (mint_lib mod_info, re-exported through src/providers/mod.rs) -/

/-- Opaque locator string; identity is exact string equality. -/
structure ModSpecification where
  url : String
deriving DecidableEq

/-- A precise, fetchable locator produced once a specification is resolved. -/
structure ModResolution where
  url : String
deriving DecidableEq

inductive ResolvableStatus
  | resolvable (res : ModResolution)
  | unresolvable (name : String)
deriving DecidableEq

/-- Resolved mod metadata. -/
structure ModInfo where
  provider : String
  name : String
  spec : ModSpecification
  versions : List ModSpecification
  status : ResolvableStatus
  suggested_require : Bool
  suggested_dependencies : List ModSpecification
deriving DecidableEq

/-- Transient resolution-step outcome. -/
inductive ModResponse
  | resolve (m : ModInfo)
  | redirect (spec : ModSpecification)
deriving DecidableEq

/-! ## BlobCache (src/providers/mod.rs lines 323-357)

The blob store directory is modelled as an association list from file name
(the lowercase hex digest) to file contents.  The SHA-256 digest is
abstracted as a parameter hash : Bytes → String; write computes the digest
and renames the temporary file onto the digest-named destination, which
overwrites it, i.e. insert-or-replace on the directory map. -/

/-- Content address (hex digest) of previously fetched bytes. -/
structure BlobRef where
  hash : String
deriving DecidableEq

/-- The contents of the blob store directory: digest-named files. -/
structure BlobCache where
  files : List (String × Bytes)
deriving DecidableEq

/-- Models BlobCache::write: digest the bytes, write a temporary file and
rename it over the digest-named destination.  The returned path is
identified with the digest-named file name. -/
def BlobCache.write (hash : Bytes → String) (st : BlobCache) (blob : Bytes) :
    BlobRef × BlobCache :=
  let h := hash blob
  (⟨h⟩, ⟨insertMap st.files h blob⟩)

/-- Models BlobCache::get_path: existence check only, returns the path
(identified with the digest-named file name) if present. -/
def BlobCache.get_path (st : BlobCache) (r : BlobRef) : Option String :=
  if (lookupMap st.files r.hash).isSome then some r.hash else none

/-- The contents of the file at a path inside the blob store directory. -/
def BlobCache.contents (st : BlobCache) (path : String) : Option Bytes :=
  lookupMap st.files path

/-- C6: equal byte sequences yield the same BlobRef, the store holds exactly
one file for that address after both writes, and a write whose target file
already exists with identical contents leaves the store unchanged. -/
theorem blobcache_write_idempotent (hash : Bytes → String) (st : BlobCache) (b1 b2 : Bytes)
    (heq : b1 = b2) (hnodup : keysNodup st.files) :
    (BlobCache.write hash st b1).1 = (BlobCache.write hash ((BlobCache.write hash st b1).2) b2).1
    ∧ countKeys ((BlobCache.write hash ((BlobCache.write hash st b1).2) b2).2).files (hash b1) = 1
    ∧ keysNodup ((BlobCache.write hash ((BlobCache.write hash st b1).2) b2).2).files
    ∧ (lookupMap st.files (hash b1) = some b1 → (BlobCache.write hash st b1).2 = st) := by
  subst heq
  have hnodup1 : keysNodup (insertMap st.files (hash b1) b1) :=
    keysNodup_insertMap _ _ _ hnodup
  have hnodup2 : keysNodup (insertMap (insertMap st.files (hash b1) b1) (hash b1) b1) :=
    keysNodup_insertMap _ _ _ hnodup1
  refine ⟨rfl, ?_, hnodup2, ?_⟩
  · have hmem : hash b1 ∈ keysOf (insertMap (insertMap st.files (hash b1) b1) (hash b1) b1) := by
      rw [keysOf_insertMap]
      by_cases h0 : hash b1 ∈ keysOf (insertMap st.files (hash b1) b1) <;> simp [h0]
    exact List.count_eq_one_of_mem hnodup2 hmem
  · intro hexist
    show BlobCache.mk (insertMap st.files (hash b1) b1) = st
    have h0 : insertMap st.files (hash b1) b1 = st.files := insertMap_eq_self _ _ _ hexist
    cases st
    simp [h0]

/-- Witness for C6 at a concrete store and byte string. -/
theorem blobcache_write_idempotent_witness :
    (BlobCache.write (fun _ => "k") ⟨[("k", [7])]⟩ [7]).1
      = (BlobCache.write (fun _ => "k") ((BlobCache.write (fun _ => "k") ⟨[("k", [7])]⟩ [7]).2) [7]).1
    ∧ countKeys ((BlobCache.write (fun _ => "k") ((BlobCache.write (fun _ => "k") ⟨[("k", [7])]⟩ [7]).2) [7]).2).files ((fun (_ : Bytes) => "k") [7]) = 1
    ∧ keysNodup ((BlobCache.write (fun _ => "k") ((BlobCache.write (fun _ => "k") ⟨[("k", [7])]⟩ [7]).2) [7]).2).files
    ∧ (lookupMap (⟨[("k", [7])]⟩ : BlobCache).files ((fun (_ : Bytes) => "k") [7]) = some [7] → (BlobCache.write (fun _ => "k") ⟨[("k", [7])]⟩ [7]).2 = ⟨[("k", [7])]⟩) :=
  blobcache_write_idempotent (fun _ => "k") ⟨[("k", [7])]⟩ [7] [7] rfl (by
    simp [keysNodup, keysOf])

/-- C7: write followed by get_path returns a path whose contents are the
written bytes. -/
theorem blobcache_write_get_path (hash : Bytes → String) (st : BlobCache) (b : Bytes) :
    BlobCache.get_path (BlobCache.write hash st b).2 (BlobCache.write hash st b).1
      = some (hash b)
    ∧ BlobCache.contents (BlobCache.write hash st b).2 (hash b) = some b := by
  have hlook : lookupMap (insertMap st.files (hash b) b) (hash b) = some b :=
    lookupMap_insertMap_self _ _ _
  constructor
  · show BlobCache.get_path ⟨insertMap st.files (hash b) b⟩ ⟨hash b⟩ = some (hash b)
    simp [BlobCache.get_path, hlook]
  · show lookupMap (insertMap st.files (hash b) b) (hash b) = some b
    exact hlook

/-! ## Provider registry and selection (src/providers/mod.rs lines 91-106)

A ProviderFactory is modelled by its id and its can_provide predicate; the
new constructor and the parameter descriptors are not consulted by
get_provider and are omitted.  The inventory registry becomes an explicit
list scanned in registration order.  Configured backends are an association
list from factory id to backend (type parameter P). -/

structure ProviderFactory where
  id : String
  can_provide : String → Bool

/-- Errors produced by ModStore::get_provider.  A missing factory is reported
through anyhow with_context (a plain context error whose message quotes the
locator); a factory whose backend was never constructed is reported as
IntegrationError::NoProvider carrying the locator and the matched factory. -/
inductive GetProviderError
  | contextError (msg : String)
  | noProvider (url : String) (factory : ProviderFactory)

/-- Models ModStore::get_provider. -/
def get_provider {P : Type} (factories : List ProviderFactory)
    (providers : List (String × P)) (url : String) : Except GetProviderError P :=
  match factories.find? (fun f => f.can_provide url) with
  | none => .error (.contextError ("Could not find mod provider for \"" ++ url ++ "\""))
  | some f =>
    match lookupMap providers f.id with
    | some p => .ok p
    | none => .error (.noProvider url f)

/-- C4 counterexample registry: a single factory that only claims locator A. -/
def factoryA : ProviderFactory := ⟨"a", fun u => u == "A"⟩

/-- C4 counterexample: a locator matched by no registered predicate fails with
the anyhow context error, not with a NoProvider error, contradicting the
claim that such a lookup fails with NoProvider. -/
theorem get_provider_no_match_counterexample :
    get_provider [factoryA] ([] : List (String × Unit)) "Z"
      = .error (.contextError "Could not find mod provider for \"Z\"") := rfl

/-- C4 amended: a locator matched by no registered predicate fails with a
context error quoting the locator; a locator whose first matching factory has
no constructed backend fails with NoProvider carrying the locator and that
factory. -/
theorem get_provider_errors {P : Type} (factories : List ProviderFactory)
    (providers : List (String × P)) (url : String) (f : ProviderFactory) :
    ((∀ g ∈ factories, g.can_provide url = false) →
      get_provider factories providers url
        = .error (.contextError ("Could not find mod provider for \"" ++ url ++ "\"")))
    ∧ (factories.find? (fun g => g.can_provide url) = some f →
        lookupMap providers f.id = none →
          get_provider factories providers url = .error (.noProvider url f)) := by
  constructor
  · intro hnone
    have hfind : factories.find? (fun g => g.can_provide url) = none := by
      rw [List.find?_eq_none]
      intro g hg
      simp [hnone g hg]
    simp [get_provider, hfind]
  · intro hfind hlook
    simp [get_provider, hfind, hlook]

/-- Witness for C4 amended, at a one-factory registry with no configured
backend: an unmatched locator gives the context error; the matched locator
gives NoProvider carrying locator and factory. -/
theorem get_provider_errors_witness :
    get_provider [factoryA] ([] : List (String × Unit)) "Z"
      = .error (.contextError ("Could not find mod provider for \"" ++ "Z" ++ "\""))
    ∧ get_provider [factoryA] ([] : List (String × Unit)) "A"
      = .error (.noProvider "A" factoryA) :=
  ⟨(get_provider_errors [factoryA] ([] : List (String × Unit)) "Z" factoryA).1
      (by intro g hg; simp at hg; subst hg; rfl),
   (get_provider_errors [factoryA] ([] : List (String × Unit)) "A" factoryA).2 rfl rfl⟩

/-! ## Offline queries (src/providers/mod.rs lines 230-246)

A configured backend is modelled by the three synchronous cache-only
queries; the provider cache argument is folded into the backend functions.
ModStore::is_pinned and ModStore::get_version_name unwrap the provider
lookup, so a failed lookup panics: the panic is modelled as a none result,
distinct from the value-level defaults.  ModStore::get_mod_info instead
converts the lookup error to None with ok()? . -/

structure OfflineProvider where
  get_mod_info : ModSpecification → Option ModInfo
  is_pinned : ModSpecification → Bool
  get_version_name : ModSpecification → Option String

/-- Models ModStore::get_mod_info: a failed provider lookup yields None. -/
def store_get_mod_info (factories : List ProviderFactory)
    (providers : List (String × OfflineProvider)) (spec : ModSpecification) :
    Option ModInfo :=
  match get_provider factories providers spec.url with
  | .error _ => none
  | .ok p => p.get_mod_info spec

/-- Models ModStore::is_pinned: none models the panic of unwrap on a failed
provider lookup. -/
def store_is_pinned (factories : List ProviderFactory)
    (providers : List (String × OfflineProvider)) (spec : ModSpecification) :
    Option Bool :=
  match get_provider factories providers spec.url with
  | .error _ => none
  | .ok p => some (p.is_pinned spec)

/-- Models ModStore::get_version_name: none models the panic of unwrap on a
failed provider lookup; some v is the value the code returns. -/
def store_get_version_name (factories : List ProviderFactory)
    (providers : List (String × OfflineProvider)) (spec : ModSpecification) :
    Option (Option String) :=
  match get_provider factories providers spec.url with
  | .error _ => none
  | .ok p => some (p.get_version_name spec)

/-- C10: when no configured provider can provide the locator (the provider
lookup fails), is_pinned and get_version_name panic (modelled none) rather
than returning an error or a default, while get_mod_info returns None as a
value. -/
theorem offline_queries_on_missing_provider (factories : List ProviderFactory)
    (providers : List (String × OfflineProvider)) (spec : ModSpecification)
    (e : GetProviderError)
    (h : get_provider factories providers spec.url = .error e) :
    store_is_pinned factories providers spec = none
    ∧ store_get_version_name factories providers spec = none
    ∧ store_get_mod_info factories providers spec = none := by
  refine ⟨?_, ?_, ?_⟩ <;> simp [store_is_pinned, store_get_version_name, store_get_mod_info, h]

/-- Witness for C10 at the one-factory registry with no configured backend. -/
theorem offline_queries_on_missing_provider_witness :
    store_is_pinned [factoryA] [] ⟨"Z"⟩ = none
    ∧ store_get_version_name [factoryA] [] ⟨"Z"⟩ = none
    ∧ store_get_mod_info [factoryA] [] ⟨"Z"⟩ = none :=
  offline_queries_on_missing_provider [factoryA] [] ⟨"Z"⟩
    (.contextError "Could not find mod provider for \"Z\"") rfl

/-! ## FileProvider (src/providers/file.rs)

std::path::Path::file_name is modelled on strings: the last normal
component of the path (empty components and "." are skipped by the Rust
component parser; a trailing ".." yields no file name).  FileProvider does
not itself check that the file exists; existence gates only the registered
can_provide predicate. -/

/-- Split a character list at every occurrence of the separator (the list of
pieces is never empty). -/
def splitOnChar (sep : Char) : List Char → List (List Char)
  | [] => [[]]
  | c :: rest =>
    match splitOnChar sep rest with
    | [] => if c = sep then [[], []] else [[c]]
    | h :: t => if c = sep then [] :: h :: t else (c :: h) :: t

/-- Model of std::path::Path::file_name over the string form of a path. -/
def rustFileName (s : String) : Option String :=
  let comps := (splitOnChar '/' s.data).filter (fun c => !(c.isEmpty || c == ['.']))
  match comps.getLast? with
  | none => none
  | some c => if c = ['.', '.'] then none else some (String.mk c)

/-- Models FileProvider::resolve_mod: the name is the file name of the path
(falling back to the whole url), the status is Unresolvable carrying the
file name (an error when the path has no file name), and no dependencies
are suggested. -/
def fileResolveMod (spec : ModSpecification) : Except String ModResponse :=
  let name := (rustFileName spec.url).getD spec.url
  match rustFileName spec.url with
  | none => .error ("could not determine file name of " ++ spec.url)
  | some base =>
    .ok (.resolve
      { provider := "file"
        name := name
        spec := spec
        versions := [spec]
        status := .unresolvable base
        suggested_require := false
        suggested_dependencies := [] })

/-- Models FileProvider::fetch_mod: the resolution url is returned as the
path unchanged; neither the provider cache nor the blob cache is touched,
so no copy is made. -/
def fileFetchMod (res : ModResolution) : Except String String :=
  .ok res.url

/-- C9: resolving a local file path yields Resolve of a ModInfo whose status
is Unresolvable carrying the file base name and whose name is that base
name; fetching the corresponding resolution returns the same path
unchanged. -/
theorem file_provider_resolve_fetch (spec : ModSpecification) (base : String)
    (h : rustFileName spec.url = some base) :
    fileResolveMod spec
      = .ok (.resolve
          { provider := "file"
            name := base
            spec := spec
            versions := [spec]
            status := .unresolvable base
            suggested_require := false
            suggested_dependencies := [] })
    ∧ fileFetchMod ⟨spec.url⟩ = .ok spec.url := by
  constructor
  · simp [fileResolveMod, h]
  · rfl

/-- Witness for C9 at the spec ./local/mod.zip from the specification. -/
theorem file_provider_resolve_fetch_witness :
    fileResolveMod ⟨"./local/mod.zip"⟩
      = .ok (.resolve
          { provider := "file"
            name := "mod.zip"
            spec := ⟨"./local/mod.zip"⟩
            versions := [⟨"./local/mod.zip"⟩]
            status := .unresolvable "mod.zip"
            suggested_require := false
            suggested_dependencies := [] })
    ∧ fileFetchMod ⟨"./local/mod.zip"⟩ = .ok "./local/mod.zip" :=
  file_provider_resolve_fetch ⟨"./local/mod.zip"⟩ "mod.zip" (by rfl)

/-! ## Fetch scheduling (src/providers/mod.rs lines 168-219)

ModStore::fetch_mods runs the per-resolution fetches through
buffer_unordered and try_collect, so results surface in completion order;
ModStore::fetch_mods_ordered runs the same work through buffered, which
still completes tasks in an arbitrary order but reassembles the outputs in
input order.  The embedding makes the completion order explicit: a schedule
is a permutation of the input positions giving the order in which the
individual fetches complete.  An individual fetch is a pure function from
resolution to path or error. -/

/-- Models futures try_collect: results are consumed in stream order and the
first error aborts the collection. -/
def tryCollect {E α : Type} : List (Except E α) → Except E (List α)
  | [] => .ok []
  | .error e :: _ => .error e
  | .ok a :: rest =>
    match tryCollect rest with
    | .error e => .error e
    | .ok l => .ok (a :: l)

/-- The completed result carrying the given input position (buffered keeps
results addressable by their start position). -/
def nthResult (completed : List (Nat × Except String String)) (i : Nat) :
    Except String String :=
  match completed.find? (fun pr => pr.1 == i) with
  | some pr => pr.2
  | none => .error "missing completion"

/-- Models ModStore::fetch_mods: buffer_unordered yields results in
completion order. -/
def fetch_mods (f : ModResolution → Except String String) (mods : List ModResolution)
    (sched : List (Fin mods.length)) : Except String (List String) :=
  tryCollect (sched.map (fun i => f (mods.get i)))

/-- Models ModStore::fetch_mods_ordered: the fetches complete in schedule
order, but buffered emits the results reassembled by input position. -/
def fetch_mods_ordered (f : ModResolution → Except String String)
    (mods : List ModResolution) (sched : List (Fin mods.length)) :
    Except String (List String) :=
  tryCollect ((List.finRange mods.length).map
    (fun i => nthResult (sched.map (fun j => (j.val, f (mods.get j)))) i.val))

theorem nthResult_lookup {n : Nat} (g : Fin n → Except String String)
    (sched : List (Fin n)) (i : Fin n) (hi : i ∈ sched) :
    nthResult (sched.map (fun j => (j.val, g j))) i.val = g i := by
  induction sched with
  | nil => cases hi
  | cons j t ih =>
    by_cases hj : j.val = i.val
    · have hji : j = i := Fin.ext hj
      subst hji
      simp [nthResult, List.find?]
    · have hji : ¬ j = i := fun h0 => hj (by rw [h0])
      have hit : i ∈ t := by
        rcases List.mem_cons.mp hi with h0 | h0
        · exact absurd h0.symm hji
        · exact h0
      have hb : (j.val == i.val) = false := by
        simp [hj]
      simpa [nthResult, List.find?, hb] using ih hit

theorem tryCollect_map_ok {E α : Type} (l : List α) :
    tryCollect (l.map (Except.ok : α → Except E α)) = .ok l := by
  induction l with
  | nil => rfl
  | cons a t ih => simp [tryCollect, ih]

/-- C5: for every completion schedule (a permutation of the input
positions), fetch_mods_ordered returns the input-order collection of the
per-resolution results — in particular, when all fetches succeed it returns
the paths in exactly the input order — while fetch_mods returns results in
completion order. -/
theorem fetch_mods_ordered_input_order (f : ModResolution → Except String String)
    (mods : List ModResolution) (sched : List (Fin mods.length))
    (hperm : sched.Perm (List.finRange mods.length)) :
    fetch_mods_ordered f mods sched = tryCollect (mods.map f)
    ∧ fetch_mods f mods sched = tryCollect (sched.map (fun i => f (mods.get i)))
    ∧ ∀ ps : List String, mods.map f = ps.map Except.ok →
        fetch_mods_ordered f mods sched = .ok ps := by
  have hmain : fetch_mods_ordered f mods sched = tryCollect (mods.map f) := by
    unfold fetch_mods_ordered
    have hmap : (List.finRange mods.length).map
        (fun i => nthResult (sched.map (fun j => (j.val, f (mods.get j)))) i.val)
        = (List.finRange mods.length).map (fun i => f (mods.get i)) := by
      apply List.map_congr_left
      intro i _
      exact nthResult_lookup (fun j => f (mods.get j)) sched i
        (hperm.mem_iff.mpr (List.mem_finRange i))
    rw [hmap]
    have : (List.finRange mods.length).map (fun i => f (mods.get i)) = mods.map f := by
      calc (List.finRange mods.length).map (fun i => f (mods.get i))
          = ((List.finRange mods.length).map mods.get).map f := by
            rw [List.map_map]
            rfl
        _ = mods.map f := by rw [List.finRange_map_get]
    rw [this]
  refine ⟨hmain, rfl, ?_⟩
  intro ps hps
  rw [hmain, hps, tryCollect_map_ok]

/-- Witness for C5: three resolutions, a schedule in which the second fetch
completes before the first; the ordered variant still returns the paths in
input order while the unordered variant returns them in completion order. -/
theorem fetch_mods_ordered_input_order_witness :
    fetch_mods_ordered (fun r => .ok ("p" ++ r.url)) [⟨"a"⟩, ⟨"b"⟩, ⟨"c"⟩]
        [⟨1, by decide⟩, ⟨0, by decide⟩, ⟨2, by decide⟩] = .ok ["pa", "pb", "pc"]
    ∧ fetch_mods (fun r => .ok ("p" ++ r.url)) [⟨"a"⟩, ⟨"b"⟩, ⟨"c"⟩]
        [⟨1, by decide⟩, ⟨0, by decide⟩, ⟨2, by decide⟩] = .ok ["pb", "pa", "pc"] := by
  have h := fetch_mods_ordered_input_order (fun r => .ok ("p" ++ r.url))
    [⟨"a"⟩, ⟨"b"⟩, ⟨"c"⟩] [⟨1, by decide⟩, ⟨0, by decide⟩, ⟨2, by decide⟩] (by decide)
  exact ⟨h.2.2 ["pa", "pb", "pc"] rfl, by rw [h.2.1]; rfl⟩

/-! ## HttpProvider::fetch_mod (src/providers/http.rs lines 88-133)

The reqwest client is modelled as an oracle from url to response (the
error_for_status check is folded into the oracle error).  The result
carries, beyond the path, the updated provider-cache section and blob
store, plus a flag recording whether a network download was performed. -/

structure HttpResponse where
  contentType : Option String
  body : Bytes

abbrev HttpNetwork := String → Except String HttpResponse

structure HttpProviderCache where
  url_blobs : List (String × BlobRef)
deriving DecidableEq

/-- Download path shared by the cache-miss branches: store the bytes in the
blob cache, unwrap get_path on the fresh blob, record the url-to-blob
mapping. -/
def httpStoreBlob (hash : Bytes → String) (url : String) (cache : HttpProviderCache)
    (bc : BlobCache) (data : Bytes) :
    Except String (String × HttpProviderCache × BlobCache × Bool) :=
  let blob := (BlobCache.write hash bc data).1
  let bc2 := (BlobCache.write hash bc data).2
  match bc2.get_path blob with
  | none => .error "unwrap of get_path failed"
  | some path => .ok (path, ⟨insertMap cache.url_blobs url blob⟩, bc2, true)

/-- Models HttpProvider::fetch_mod. -/
def http_fetch_mod (hash : Bytes → String) (net : HttpNetwork) (url : String)
    (update : Bool) (cache : HttpProviderCache) (bc : BlobCache) :
    Except String (String × HttpProviderCache × BlobCache × Bool) :=
  match (if update then none
         else (lookupMap cache.url_blobs url).bind (fun r => bc.get_path r)) with
  | some path => .ok (path, cache, bc, false)
  | none =>
    match net url with
    | .error e => .error e
    | .ok resp =>
      match resp.contentType with
      | some ct =>
        if ct = "application/zip" ∨ ct = "application/octet-stream" then
          httpStoreBlob hash url cache bc resp.body
        else .error ("unexpected content-type: " ++ ct)
      | none => httpStoreBlob hash url cache bc resp.body

/-! ## ModioProvider::fetch_mod (src/providers/modio.rs lines 400-461)

Only the modfile_blobs section of ModioCache participates in fetch_mod;
the mods, mod_id_map and dependencies sections are not read or written by
it and are omitted from the embedded cache.  The mod.io API client is an
oracle from (mod_id, modfile_id) to the downloaded bytes (the file lookup
and the download are collapsed into one fallible call).  The RE_MOD regex
capture is modelled by modioParseUrl. -/

structure ModioCache where
  modfile_blobs : List (Nat × BlobRef)
deriving DecidableEq

/-- Parse a run of decimal digits (the regex digit captures). -/
def digitsToNat (l : List Char) : Option Nat :=
  if l.isEmpty || !(l.all Char.isDigit) then none
  else some (l.foldl (fun acc c => acc * 10 + (c.toNat - 48)) 0)

/-- Model of the RE_MOD regex of modio.rs: a url of shape
https://mod.io/g/drg/m/NAME optionally followed by a fragment with the mod
id and optionally the modfile id.  Returns the name and the optional
(mod_id, optional modfile_id) captures. -/
def modioParseUrl (url : String) : Option (String × Option (Nat × Option Nat)) :=
  if "https://mod.io/g/drg/m/".data.isPrefixOf url.data then
    let rest := url.data.drop 23
    match splitOnChar '#' rest with
    | [name] =>
      if name.isEmpty || name.elem '/' then none
      else some (String.mk name, none)
    | [name, ids] =>
      if name.isEmpty || name.elem '/' then none
      else
        match splitOnChar '/' ids with
        | [mid] =>
          match digitsToNat mid with
          | some m => some (String.mk name, some (m, none))
          | none => none
        | [mid, fid] =>
          match digitsToNat mid, digitsToNat fid with
          | some m, some fv => some (String.mk name, some (m, some fv))
          | _, _ => none
        | _ => none
    | _ => none
  else none

/-- Models ModioProvider::fetch_mod.  The update parameter is received but,
as in the source (the parameter is bound as the unused name _update), never
consulted. -/
def modio_fetch_mod (hash : Bytes → String) (net : Nat × Nat → Except String Bytes)
    (res : ModResolution) (_update : Bool) (cache : ModioCache) (bc : BlobCache) :
    Except String (String × ModioCache × BlobCache × Bool) :=
  match modioParseUrl res.url with
  | none => .error ("invalid modio URL " ++ res.url)
  | some (_, none) => .error "download URL must be fully specified"
  | some (_, some (_, none)) => .error "download URL must be fully specified"
  | some (_, some (mod_id, some modfile_id)) =>
    match (lookupMap cache.modfile_blobs modfile_id).bind (fun r => bc.get_path r) with
    | some path => .ok (path, cache, bc, false)
    | none =>
      match net (mod_id, modfile_id) with
      | .error e => .error e
      | .ok data =>
        let blob := (BlobCache.write hash bc data).1
        let bc2 := (BlobCache.write hash bc data).2
        match bc2.get_path blob with
        | none => .error "unwrap of get_path failed"
        | some path =>
          .ok (path, ⟨insertMap cache.modfile_blobs modfile_id blob⟩, bc2, true)

/-- C3 counterexample: the mod.io provider consults its cache even when the
update flag is set; with a cached blob present it returns the cached path,
performs no retrieval (flag false) and leaves both caches unchanged,
contradicting the claim that whenever update is set the provider performs
the retrieval. -/
theorem modio_fetch_ignores_update_counterexample :
    modio_fetch_mod (fun _ => "h") (fun _ => .ok [1])
      ⟨"https://mod.io/g/drg/m/somemod#5/7"⟩ true ⟨[(7, ⟨"abc"⟩)]⟩ ⟨[("abc", [9])]⟩
      = .ok ("abc", ⟨[(7, ⟨"abc"⟩)]⟩, ⟨[("abc", [9])]⟩, false) := by rfl

/-- C3 amended: the HTTP provider behaves as the claim states (cache hit
without update returns the cached path with no retrieval; update or a cache
miss forces the retrieval, whose content type is validated before the bytes
are stored, the mapping recorded and the stored path returned); the mod.io
provider ignores the update flag: a cached blob short-circuits the
retrieval even when update is set, and only a cache miss triggers the
retrieval, storage and recording (with no content-type validation). -/
theorem fetch_mod_cache_behavior :
    (∀ (hash : Bytes → String) (net : HttpNetwork) (url : String)
        (cache : HttpProviderCache) (bc : BlobCache) (r : BlobRef) (p : String),
        lookupMap cache.url_blobs url = some r → bc.get_path r = some p →
        http_fetch_mod hash net url false cache bc = .ok (p, cache, bc, false))
    ∧ (∀ (hash : Bytes → String) (net : HttpNetwork) (url : String) (update : Bool)
        (cache : HttpProviderCache) (bc : BlobCache) (resp : HttpResponse),
        net url = .ok resp →
        (update = true
          ∨ (lookupMap cache.url_blobs url).bind (fun r => bc.get_path r) = none) →
        (resp.contentType = none ∨ resp.contentType = some "application/zip"
          ∨ resp.contentType = some "application/octet-stream") →
        http_fetch_mod hash net url update cache bc
          = .ok (hash resp.body, ⟨insertMap cache.url_blobs url ⟨hash resp.body⟩⟩,
                 (BlobCache.write hash bc resp.body).2, true))
    ∧ (∀ (hash : Bytes → String) (net : HttpNetwork) (url : String) (update : Bool)
        (cache : HttpProviderCache) (bc : BlobCache) (resp : HttpResponse) (ct : String),
        net url = .ok resp →
        (update = true
          ∨ (lookupMap cache.url_blobs url).bind (fun r => bc.get_path r) = none) →
        resp.contentType = some ct →
        ¬ (ct = "application/zip" ∨ ct = "application/octet-stream") →
        http_fetch_mod hash net url update cache bc
          = .error ("unexpected content-type: " ++ ct))
    ∧ (∀ (hash : Bytes → String) (net : Nat × Nat → Except String Bytes)
        (res : ModResolution) (update : Bool) (cache : ModioCache) (bc : BlobCache)
        (name : String) (mid fid : Nat) (r : BlobRef) (p : String),
        modioParseUrl res.url = some (name, some (mid, some fid)) →
        lookupMap cache.modfile_blobs fid = some r → bc.get_path r = some p →
        modio_fetch_mod hash net res update cache bc = .ok (p, cache, bc, false))
    ∧ (∀ (hash : Bytes → String) (net : Nat × Nat → Except String Bytes)
        (res : ModResolution) (update : Bool) (cache : ModioCache) (bc : BlobCache)
        (name : String) (mid fid : Nat) (data : Bytes),
        modioParseUrl res.url = some (name, some (mid, some fid)) →
        (lookupMap cache.modfile_blobs fid).bind (fun r => bc.get_path r) = none →
        net (mid, fid) = .ok data →
        modio_fetch_mod hash net res update cache bc
          = .ok (hash data, ⟨insertMap cache.modfile_blobs fid ⟨hash data⟩⟩,
                 (BlobCache.write hash bc data).2, true)) := by
  have hpath : ∀ (hash : Bytes → String) (bc : BlobCache) (data : Bytes),
      BlobCache.get_path (BlobCache.write hash bc data).2 (BlobCache.write hash bc data).1
        = some (hash data) := by
    intro hash bc data
    show BlobCache.get_path ⟨insertMap bc.files (hash data) data⟩ ⟨hash data⟩ = some (hash data)
    simp [BlobCache.get_path, lookupMap_insertMap_self]
  have hfst : ∀ (hash : Bytes → String) (bc : BlobCache) (data : Bytes),
      (BlobCache.write hash bc data).1 = BlobRef.mk (hash data) := fun _ _ _ => rfl
  refine ⟨?_, ?_, ?_, ?_, ?_⟩
  · intro hash net url cache bc r p hl hp
    simp [http_fetch_mod, hl, hp]
  · intro hash net url update cache bc resp hnet hmiss hct
    have hscrut : (if update then none
        else (lookupMap cache.url_blobs url).bind (fun r => bc.get_path r))
          = (none : Option String) := by
      rcases hmiss with hup | hm
      · simp [hup]
      · cases update <;> simp [hm]
    have hp2 := hpath hash bc resp.body
    rw [hfst hash bc resp.body] at hp2
    rcases hct with hct | hct | hct <;>
      simp [http_fetch_mod, hscrut, hnet, hct, httpStoreBlob, hfst hash bc resp.body, hp2]
  · intro hash net url update cache bc resp ct hnet hmiss hct hbad
    have hscrut : (if update then none
        else (lookupMap cache.url_blobs url).bind (fun r => bc.get_path r))
          = (none : Option String) := by
      rcases hmiss with hup | hm
      · simp [hup]
      · cases update <;> simp [hm]
    have h1 : ¬ ct = "application/zip" := fun h0 => hbad (Or.inl h0)
    have h2 : ¬ ct = "application/octet-stream" := fun h0 => hbad (Or.inr h0)
    simp [http_fetch_mod, hscrut, hnet, hct, h1, h2]
  · intro hash net res update cache bc name mid fid r p hparse hl hp
    simp [modio_fetch_mod, hparse, hl, hp]
  · intro hash net res update cache bc name mid fid data hparse hmiss hnet
    have hp2 := hpath hash bc data
    rw [hfst hash bc data] at hp2
    simp [modio_fetch_mod, hparse, hmiss, hnet, hfst hash bc data, hp2]

/-- Witness for C3 amended: all five behaviors at concrete states; the
download conjunct is exercised on the ordinary cold-start path (cache miss
with update not set) and the validation conjunct with update set. -/
theorem fetch_mod_cache_behavior_witness :
    http_fetch_mod (fun _ => "h") (fun _ => .error "offline") "u" false
        ⟨[("u", ⟨"k"⟩)]⟩ ⟨[("k", [1])]⟩ = .ok ("k", ⟨[("u", ⟨"k"⟩)]⟩, ⟨[("k", [1])]⟩, false)
    ∧ http_fetch_mod (fun _ => "h") (fun _ => .ok ⟨some "application/zip", [2]⟩) "u" false
        ⟨[]⟩ ⟨[]⟩ = .ok ("h", ⟨insertMap [] "u" ⟨"h"⟩⟩,
            (BlobCache.write (fun _ => "h") ⟨[]⟩ [2]).2, true)
    ∧ http_fetch_mod (fun _ => "h") (fun _ => .ok ⟨some "text/html", [2]⟩) "u" true
        ⟨[]⟩ ⟨[]⟩ = .error ("unexpected content-type: " ++ "text/html")
    ∧ modio_fetch_mod (fun _ => "h") (fun _ => .ok [1])
        ⟨"https://mod.io/g/drg/m/somemod#5/7"⟩ false ⟨[(7, ⟨"abc"⟩)]⟩ ⟨[("abc", [9])]⟩
        = .ok ("abc", ⟨[(7, ⟨"abc"⟩)]⟩, ⟨[("abc", [9])]⟩, false)
    ∧ modio_fetch_mod (fun _ => "h") (fun _ => .ok [3])
        ⟨"https://mod.io/g/drg/m/somemod#5/7"⟩ false ⟨[]⟩ ⟨[]⟩
        = .ok ("h", ⟨insertMap [] 7 ⟨"h"⟩⟩, (BlobCache.write (fun _ => "h") ⟨[]⟩ [3]).2, true) := by
  have h := fetch_mod_cache_behavior
  exact ⟨h.1 (fun _ => "h") (fun _ => .error "offline") "u" ⟨[("u", ⟨"k"⟩)]⟩ ⟨[("k", [1])]⟩
            ⟨"k"⟩ "k" rfl rfl,
         h.2.1 (fun _ => "h") (fun _ => .ok ⟨some "application/zip", [2]⟩) "u" false ⟨[]⟩ ⟨[]⟩
            ⟨some "application/zip", [2]⟩ rfl (Or.inr rfl) (Or.inr (Or.inl rfl)),
         h.2.2.1 (fun _ => "h") (fun _ => .ok ⟨some "text/html", [2]⟩) "u" true ⟨[]⟩ ⟨[]⟩
            ⟨some "text/html", [2]⟩ "text/html" rfl (Or.inl rfl) rfl (by simp),
         h.2.2.2.1 (fun _ => "h") (fun _ => .ok [1]) ⟨"https://mod.io/g/drg/m/somemod#5/7"⟩
            false ⟨[(7, ⟨"abc"⟩)]⟩ ⟨[("abc", [9])]⟩ "somemod" 5 7 ⟨"abc"⟩ "abc" rfl rfl rfl,
         h.2.2.2.2 (fun _ => "h") (fun _ => .ok [3]) ⟨"https://mod.io/g/drg/m/somemod#5/7"⟩
            false ⟨[]⟩ ⟨[]⟩ "somemod" 5 7 [3] rfl rfl rfl⟩

/-! ## ModStore resolution loop (src/providers/mod.rs lines 108-166)

The composite step the loop performs on one spec — get_provider followed by
the owning provider's resolve_mod — is abstracted as a pure function from
spec and update flag to response or error.  ModStore::resolve_mod follows
Redirect responses in an unbounded loop; the embedding bounds it with fuel
(none = the redirect chain did not finish within the fuel).  The outer
resolve_mods loop is likewise not guaranteed to terminate and takes its own
fuel.  buffer_unordered plus try_collect over one snapshot of the pending
set is modelled by batchResolve, in which an error produced by any task
aborts the batch even if another task never completes. -/

abbrev ResolveStep := ModSpecification → Bool → Except String ModResponse

/-- The redirect-following loop inside ModStore::resolve_mod. -/
def resolveModAux (p : ResolveStep) (update : Bool) :
    Nat → ModSpecification → Option (Except String ModInfo)
  | 0, _ => none
  | fuel + 1, spec =>
    match p spec update with
    | .error e => some (.error e)
    | .ok (.resolve m) => some (.ok m)
    | .ok (.redirect s) => resolveModAux p update fuel s

/-- Models ModStore::resolve_mod: follow redirects, then pair the resolved
info with the original spec. -/
def resolve_mod (p : ResolveStep) (update : Bool) (fuel : Nat)
    (original_spec : ModSpecification) :
    Option (Except String (ModSpecification × ModInfo)) :=
  match resolveModAux p update fuel original_spec with
  | none => none
  | some (.error e) => some (.error e)
  | some (.ok m) => some (.ok (original_spec, m))

/-- Models one buffer_unordered + try_collect pass over a snapshot of the
pending set: every spec is resolved, an error from any one aborts the
batch. -/
def batchResolve (p : ResolveStep) (update : Bool) (fuel : Nat) :
    List ModSpecification → Option (Except String (List (ModSpecification × ModInfo)))
  | [] => some (.ok [])
  | s :: rest =>
    match resolveModAux p update fuel s, batchResolve p update fuel rest with
    | some (.error e), _ => some (.error e)
    | _, some (.error e) => some (.error e)
    | some (.ok m), some (.ok ms) => some (.ok ((s, m) :: ms))
    | _, _ => none

/-- The recomputation of the pending set at the end of a pass: all suggested
dependencies of all mods in the map that are not in the precise set,
deduplicated (to_resolve is a HashSet). -/
def computeNext (map : List (ModSpecification × ModInfo))
    (precise : List ModSpecification) : List ModSpecification :=
  (((map.map (fun e => e.2.suggested_dependencies)).flatten).filter
    (fun d => !(decide (d ∈ precise)))).dedup

/-- Insert all resolved pairs into the result map (original spec as key). -/
def insertAllMap (map : List (ModSpecification × ModInfo))
    (pairs : List (ModSpecification × ModInfo)) : List (ModSpecification × ModInfo) :=
  pairs.foldl (fun acc e => insertMap acc e.1 e.2) map

/-- Insert all resolved infos' precise specs into the precise set. -/
def insertAllPrecise (precise : List ModSpecification)
    (pairs : List (ModSpecification × ModInfo)) : List ModSpecification :=
  pairs.foldl (fun acc e => acc.insert e.2.spec) precise

/-- The while loop of ModStore::resolve_mods, with fuel bounding the number
of passes. -/
def resolveModsLoop (p : ResolveStep) (update : Bool) (innerFuel : Nat) :
    Nat → List (ModSpecification × ModInfo) → List ModSpecification →
    List ModSpecification → Option (Except String (List (ModSpecification × ModInfo)))
  | 0, map, _, pending => if pending.isEmpty then some (.ok map) else none
  | F + 1, map, precise, pending =>
    if pending.isEmpty then some (.ok map)
    else
      match batchResolve p update innerFuel pending with
      | none => none
      | some (.error e) => some (.error e)
      | some (.ok pairs) =>
        resolveModsLoop p update innerFuel F (insertAllMap map pairs)
          (insertAllPrecise precise pairs)
          (computeNext (insertAllMap map pairs) (insertAllPrecise precise pairs))

/-- Models ModStore::resolve_mods: seed the pending set with the (deduplicated)
input specs, the result map and precise set empty. -/
def resolve_mods (p : ResolveStep) (update : Bool) (innerFuel outerFuel : Nat)
    (mods : List ModSpecification) :
    Option (Except String (List (ModSpecification × ModInfo))) :=
  resolveModsLoop p update innerFuel outerFuel [] [] mods.dedup

theorem batchResolve_ok (p : ResolveStep) (u : Bool) (n : Nat) :
    ∀ (specs : List ModSpecification) (pairs : List (ModSpecification × ModInfo)),
    batchResolve p u n specs = some (.ok pairs) →
    pairs.map Prod.fst = specs
    ∧ ∀ e ∈ pairs, resolveModAux p u n e.1 = some (.ok e.2) := by
  intro specs
  induction specs with
  | nil =>
    intro pairs h
    simp [batchResolve] at h
    subst h
    simp
  | cons s rest ih =>
    intro pairs h
    rcases h1 : resolveModAux p u n s with _ | eo
    · rcases h2 : batchResolve p u n rest with _ | r2
      · simp [batchResolve, h1, h2] at h
      · rcases r2 with e | ms <;> simp [batchResolve, h1, h2] at h
    · rcases eo with e | m
      · simp [batchResolve, h1] at h
      · rcases h2 : batchResolve p u n rest with _ | r2
        · simp [batchResolve, h1, h2] at h
        · rcases r2 with e | ms
          · simp [batchResolve, h1, h2] at h
          · simp [batchResolve, h1, h2] at h
            subst h
            obtain ⟨hkeys, hwf⟩ := ih ms h2
            refine ⟨by simp [hkeys], ?_⟩
            intro e he
            rcases List.mem_cons.mp he with he0 | he0
            · subst he0
              exact h1
            · exact hwf e he0

theorem batchResolve_total (p : ResolveStep) (u : Bool) (n : Nat)
    (hTot : ∀ s, resolveModAux p u n s ≠ none) :
    ∀ specs : List ModSpecification, batchResolve p u n specs ≠ none := by
  intro specs
  induction specs with
  | nil => simp [batchResolve]
  | cons s rest ih =>
    rcases h1 : resolveModAux p u n s with _ | eo
    · exact absurd h1 (hTot s)
    · rcases h2 : batchResolve p u n rest with _ | r2
      · exact absurd h2 ih
      · rcases eo with e | m <;> rcases r2 with e2 | ms <;>
          simp [batchResolve, h1, h2]

theorem batchResolve_error (p : ResolveStep) (u : Bool) (n : Nat) :
    ∀ (specs : List ModSpecification) (s : ModSpecification) (e : String),
    s ∈ specs → resolveModAux p u n s = some (.error e) →
    ∃ e2, batchResolve p u n specs = some (.error e2) := by
  intro specs
  induction specs with
  | nil =>
    intro s e hs
    cases hs
  | cons s0 rest ih =>
    intro s e hs herr
    rcases List.mem_cons.mp hs with h0 | h0
    · subst h0
      exact ⟨e, by simp [batchResolve, herr]⟩
    · obtain ⟨e2, h2⟩ := ih s e h0 herr
      rcases h1 : resolveModAux p u n s0 with _ | eo
      · exact ⟨e2, by simp [batchResolve, h1, h2]⟩
      · rcases eo with e0 | m
        · exact ⟨e0, by simp [batchResolve, h1]⟩
        · exact ⟨e2, by simp [batchResolve, h1, h2]⟩

theorem mem_computeNext (map : List (ModSpecification × ModInfo))
    (precise : List ModSpecification) (d : ModSpecification) :
    d ∈ computeNext map precise
      ↔ (∃ e ∈ map, d ∈ e.2.suggested_dependencies) ∧ d ∉ precise := by
  unfold computeNext
  rw [List.mem_dedup, List.mem_filter]
  constructor
  · rintro ⟨hmem, hp⟩
    rw [List.mem_flatten] at hmem
    obtain ⟨l, hl, hd⟩ := hmem
    rw [List.mem_map] at hl
    obtain ⟨e, he, rfl⟩ := hl
    refine ⟨⟨e, he, hd⟩, ?_⟩
    simpa using hp
  · rintro ⟨⟨e, he, hd⟩, hnp⟩
    refine ⟨?_, by simpa using hnp⟩
    rw [List.mem_flatten]
    exact ⟨e.2.suggested_dependencies, List.mem_map.mpr ⟨e, he, rfl⟩, hd⟩

theorem mem_insertAllPrecise :
    ∀ (pairs : List (ModSpecification × ModInfo)) (precise : List ModSpecification)
      (x : ModSpecification),
    x ∈ insertAllPrecise precise pairs
      ↔ x ∈ precise ∨ ∃ e ∈ pairs, e.2.spec = x := by
  intro pairs
  induction pairs with
  | nil => intro precise x; simp [insertAllPrecise]
  | cons e t ih =>
    intro precise x
    show x ∈ insertAllPrecise (precise.insert e.2.spec) t ↔ _
    rw [ih]
    simp [List.mem_insert_iff]
    tauto

theorem lookupMap_insertAllMap_cases :
    ∀ (pairs : List (ModSpecification × ModInfo)) (map : List (ModSpecification × ModInfo))
      (a : ModSpecification),
    (lookupMap (insertAllMap map pairs) a = lookupMap map a ∧ a ∉ pairs.map Prod.fst)
    ∨ (∃ m, lookupMap (insertAllMap map pairs) a = some m ∧ (a, m) ∈ pairs) := by
  intro pairs
  induction pairs with
  | nil => intro map a; left; exact ⟨rfl, by simp⟩
  | cons e t ih =>
    intro map a
    have hstep : insertAllMap map (e :: t) = insertAllMap (insertMap map e.1 e.2) t := rfl
    rcases ih (insertMap map e.1 e.2) a with ⟨heq, hnot⟩ | ⟨m, heq, hmem⟩
    · by_cases ha : a = e.1
      · right
        refine ⟨e.2, ?_, ?_⟩
        · rw [hstep, heq, lookupMap_insertMap]
          simp [ha]
        · subst ha
          simp
      · left
        refine ⟨?_, ?_⟩
        · rw [hstep, heq, lookupMap_insertMap]
          simp [ha]
        · simp [ha, hnot]
    · right
      exact ⟨m, by rw [hstep]; exact heq, List.mem_cons_of_mem e hmem⟩

theorem lookupMap_insertAllMap_isSome (pairs map : List (ModSpecification × ModInfo))
    (a : ModSpecification)
    (h : (lookupMap map a).isSome ∨ a ∈ pairs.map Prod.fst) :
    (lookupMap (insertAllMap map pairs) a).isSome := by
  rcases lookupMap_insertAllMap_cases pairs map a with ⟨heq, hnot⟩ | ⟨m, heq, _⟩
  · rw [heq]
    rcases h with h | h
    · exact h
    · exact absurd h hnot
  · simp [heq]

theorem keysNodup_insertAllMap :
    ∀ (pairs map : List (ModSpecification × ModInfo)),
    keysNodup map → keysNodup (insertAllMap map pairs) := by
  intro pairs
  induction pairs with
  | nil => intro map h; exact h
  | cons e t ih =>
    intro map h
    exact ih (insertMap map e.1 e.2) (keysNodup_insertMap map e.1 e.2 h)

theorem mem_insertMap {α β : Type} [DecidableEq α] :
    ∀ (l : List (α × β)) (k : α) (v : β) (e : α × β),
    e ∈ insertMap l k v → e ∈ l ∨ e = (k, v) := by
  intro l
  induction l with
  | nil =>
    intro k v e he
    simp [insertMap] at he
    simp [he]
  | cons hd t ih =>
    intro k v e he
    obtain ⟨k0, v0⟩ := hd
    by_cases hk : k = k0
    · subst hk
      simp [insertMap] at he
      rcases he with he | he
      · right; simp [he]
      · left; simp [he]
    · simp [insertMap, hk] at he
      rcases he with he | he
      · left; simp [he]
      · rcases ih k v e he with h0 | h0
        · left; simp [h0]
        · right; exact h0

theorem mem_insertMap_self {α β : Type} [DecidableEq α] :
    ∀ (l : List (α × β)) (k : α) (v : β), (k, v) ∈ insertMap l k v := by
  intro l
  induction l with
  | nil => intro k v; simp [insertMap]
  | cons hd t ih =>
    intro k v
    obtain ⟨k0, v0⟩ := hd
    by_cases hk : k = k0 <;> simp [insertMap, hk, ih k v]

/-- Entries of the result map record actual resolution results. -/
def wfEntries (p : ResolveStep) (u : Bool) (n : Nat)
    (map : List (ModSpecification × ModInfo)) : Prop :=
  ∀ e ∈ map, resolveModAux p u n e.1 = some (.ok e.2)

theorem wfEntries_insertMap (p : ResolveStep) (u : Bool) (n : Nat)
    (map : List (ModSpecification × ModInfo)) (k : ModSpecification) (v : ModInfo)
    (hwf : wfEntries p u n map) (hkv : resolveModAux p u n k = some (.ok v)) :
    wfEntries p u n (insertMap map k v) := by
  intro e he
  rcases mem_insertMap map k v e he with h0 | h0
  · exact hwf e h0
  · subst h0
    exact hkv

theorem mem_insertMap_preserved (p : ResolveStep) (u : Bool) (n : Nat)
    (map : List (ModSpecification × ModInfo)) (k : ModSpecification) (v : ModInfo)
    (hwf : wfEntries p u n map) (hkv : resolveModAux p u n k = some (.ok v)) :
    ∀ e ∈ map, e ∈ insertMap map k v := by
  intro e he
  induction map with
  | nil => cases he
  | cons hd t ih =>
    obtain ⟨k0, v0⟩ := hd
    by_cases hk : k = k0
    · subst hk
      simp only [insertMap, if_pos rfl]
      rcases List.mem_cons.mp he with he0 | he0
      · have hv0 : resolveModAux p u n k = some (.ok v0) := by
          have := hwf (k, v0) (by simp [he0])
          simpa using this
        have : v0 = v := by
          rw [hv0] at hkv
          injection hkv with h0
          injection h0
        subst this
        simp [he0]
      · exact List.mem_cons_of_mem _ he0
    · simp only [insertMap, if_neg hk]
      rcases List.mem_cons.mp he with he0 | he0
      · simp [he0]
      · exact List.mem_cons_of_mem _
          (ih (fun e2 he2 => hwf e2 (List.mem_cons_of_mem _ he2)) he0)

theorem wfEntries_insertAllMap (p : ResolveStep) (u : Bool) (n : Nat) :
    ∀ (pairs map : List (ModSpecification × ModInfo)),
    wfEntries p u n map → (∀ e ∈ pairs, resolveModAux p u n e.1 = some (.ok e.2)) →
    wfEntries p u n (insertAllMap map pairs) := by
  intro pairs
  induction pairs with
  | nil => intro map hwf _; exact hwf
  | cons e t ih =>
    intro map hwf hpairs
    exact ih (insertMap map e.1 e.2)
      (wfEntries_insertMap p u n map e.1 e.2 hwf (hpairs e (by simp)))
      (fun e2 he2 => hpairs e2 (List.mem_cons_of_mem _ he2))

theorem mem_insertAllMap_preserved (p : ResolveStep) (u : Bool) (n : Nat) :
    ∀ (pairs map : List (ModSpecification × ModInfo)),
    wfEntries p u n map → (∀ e ∈ pairs, resolveModAux p u n e.1 = some (.ok e.2)) →
    ∀ e ∈ map, e ∈ insertAllMap map pairs := by
  intro pairs
  induction pairs with
  | nil => intro map _ _ e he; exact he
  | cons e0 t ih =>
    intro map hwf hpairs e he
    exact ih (insertMap map e0.1 e0.2)
      (wfEntries_insertMap p u n map e0.1 e0.2 hwf (hpairs e0 (by simp)))
      (fun e2 he2 => hpairs e2 (List.mem_cons_of_mem _ he2))
      e (mem_insertMap_preserved p u n map e0.1 e0.2 hwf (hpairs e0 (by simp)) e he)

theorem mem_insertAllMap_of_mem_pairs (p : ResolveStep) (u : Bool) (n : Nat) :
    ∀ (pairs map : List (ModSpecification × ModInfo)),
    wfEntries p u n map → (∀ e ∈ pairs, resolveModAux p u n e.1 = some (.ok e.2)) →
    ∀ e ∈ pairs, e ∈ insertAllMap map pairs := by
  intro pairs
  induction pairs with
  | nil => intro map _ _ e he; cases he
  | cons e0 t ih =>
    intro map hwf hpairs e he
    have hwf1 : wfEntries p u n (insertMap map e0.1 e0.2) :=
      wfEntries_insertMap p u n map e0.1 e0.2 hwf (hpairs e0 (by simp))
    have hpt : ∀ e2 ∈ t, resolveModAux p u n e2.1 = some (.ok e2.2) :=
      fun e2 he2 => hpairs e2 (List.mem_cons_of_mem _ he2)
    rcases List.mem_cons.mp he with he0 | he0
    · subst he0
      exact mem_insertAllMap_preserved p u n t (insertMap map e.1 e.2) hwf1 hpt
        e (mem_insertMap_self map e.1 e.2)
    · exact ih (insertMap map e0.1 e0.2) hwf1 hpt e he0

theorem loop_keys (p : ResolveStep) (u : Bool) (iF : Nat) :
    ∀ (F : Nat) (map : List (ModSpecification × ModInfo))
      (precise pending : List ModSpecification)
      (r : List (ModSpecification × ModInfo)),
    resolveModsLoop p u iF F map precise pending = some (.ok r) →
    keysNodup map →
    keysNodup r
    ∧ ∀ a, ((lookupMap map a).isSome ∨ a ∈ pending) → (lookupMap r a).isSome := by
  intro F
  induction F with
  | zero =>
    intro map precise pending r h hn
    by_cases hp : pending.isEmpty
    · simp [resolveModsLoop, hp] at h
      subst h
      refine ⟨hn, ?_⟩
      intro a ha
      rcases ha with ha | ha
      · exact ha
      · rw [List.isEmpty_iff.mp hp] at ha
        cases ha
    · simp [resolveModsLoop, hp] at h
  | succ F ih =>
    intro map precise pending r h hn
    by_cases hp : pending.isEmpty
    · simp [resolveModsLoop, hp] at h
      subst h
      refine ⟨hn, ?_⟩
      intro a ha
      rcases ha with ha | ha
      · exact ha
      · rw [List.isEmpty_iff.mp hp] at ha
        cases ha
    · rw [resolveModsLoop, if_neg hp] at h
      rcases hb : batchResolve p u iF pending with _ | res
      · rw [hb] at h
        cases h
      · rcases res with e | pairs
        · rw [hb] at h
          cases h
        · rw [hb] at h
          obtain ⟨hkeys, _⟩ := batchResolve_ok p u iF pending pairs hb
          have hn2 : keysNodup (insertAllMap map pairs) :=
            keysNodup_insertAllMap pairs map hn
          obtain ⟨hnr, hlook⟩ := ih _ _ _ r h hn2
          refine ⟨hnr, ?_⟩
          intro a ha
          apply hlook
          left
          apply lookupMap_insertAllMap_isSome
          rcases ha with ha | ha
          · exact Or.inl ha
          · right
            rw [hkeys]
            exact ha

/-- C1: on success, resolve_mods returns a map with distinct keys containing
one entry for every (distinct) input spec, keyed by the original spec — the
pairing with the original spec is performed by resolve_mod before any
redirect target replaces the working spec — and resolve_mods of the empty
list returns the empty map. -/
theorem resolve_mods_one_entry_per_input (p : ResolveStep) (u : Bool) (iF F : Nat)
    (mods : List ModSpecification) (r : List (ModSpecification × ModInfo))
    (h : resolve_mods p u iF F mods = some (.ok r)) :
    keysNodup r
    ∧ (∀ s ∈ mods, (lookupMap r s).isSome)
    ∧ resolve_mods p u iF F [] = some (.ok []) := by
  obtain ⟨hnr, hlook⟩ := loop_keys p u iF F [] [] mods.dedup r h
    (by simp [keysNodup, keysOf])
  refine ⟨hnr, ?_, ?_⟩
  · intro s hs
    exact hlook s (Or.inr (List.mem_dedup.mpr hs))
  · cases F <;> simp [resolve_mods, resolveModsLoop]

/-- A provider that redirects A to B, B to C and resolves C, used to witness
C1 on a redirect chain. -/
def redirectChainProvider : ResolveStep := fun s _ =>
  if s.url = "A" then .ok (.redirect ⟨"B"⟩)
  else if s.url = "B" then .ok (.redirect ⟨"C"⟩)
  else .ok (.resolve
    { provider := "w"
      name := "c"
      spec := ⟨"C"⟩
      versions := []
      status := .unresolvable "c"
      suggested_require := false
      suggested_dependencies := [] })

/-- The info the chain resolves to. -/
def redirectChainInfo : ModInfo :=
  { provider := "w"
    name := "c"
    spec := ⟨"C"⟩
    versions := []
    status := .unresolvable "c"
    suggested_require := false
    suggested_dependencies := [] }

/-- Witness for C1: the backend redirects twice, yet the entry is keyed by
the original spec A. -/
theorem resolve_mods_one_entry_per_input_witness :
    keysNodup [((⟨"A"⟩ : ModSpecification), redirectChainInfo)]
    ∧ (∀ s ∈ [(⟨"A"⟩ : ModSpecification)],
        (lookupMap [((⟨"A"⟩ : ModSpecification), redirectChainInfo)] s).isSome)
    ∧ resolve_mods redirectChainProvider false 3 2 [] = some (.ok []) :=
  resolve_mods_one_entry_per_input redirectChainProvider false 3 2 [⟨"A"⟩]
    [(⟨"A"⟩, redirectChainInfo)] (by rfl)

theorem tryCollect_error (l : List (Except String String))
    (h : ∃ x ∈ l, ∃ e, x = .error e) : ∃ e2, tryCollect l = .error e2 := by
  induction l with
  | nil =>
    obtain ⟨x, hx, _⟩ := h
    cases hx
  | cons x t ih =>
    obtain ⟨y, hy, e, he⟩ := h
    rcases x with e0 | a
    · exact ⟨e0, rfl⟩
    · have hyt : y ∈ t := by
        rcases List.mem_cons.mp hy with h0 | h0
        · rw [he] at h0
          cases h0
        · exact h0
      obtain ⟨e2, h2⟩ := ih ⟨y, hyt, e, he⟩
      exact ⟨e2, by simp [tryCollect, h2]⟩

/-- C8: a failing element aborts the whole batch.  If resolving any input
spec fails, resolve_mods returns that pass's error (never a partial map:
the Except result is either one error or the complete map, and the error
path carries no map at all); if fetching any scheduled resolution fails,
fetch_mods returns an error (never a partial path list). -/
theorem batch_aborts_on_first_error (p : ResolveStep) (u : Bool) (iF F : Nat)
    (mods : List ModSpecification) (s : ModSpecification) (e : String)
    (hs : s ∈ mods) (herr : resolveModAux p u iF s = some (.error e)) (hF : 0 < F) :
    (∃ e2, resolve_mods p u iF F mods = some (.error e2))
    ∧ ∀ (f : ModResolution → Except String String) (rs : List ModResolution)
        (sched : List (Fin rs.length)) (i : Fin rs.length) (e3 : String),
        sched.Perm (List.finRange rs.length) → f (rs.get i) = .error e3 →
        ∃ e4, fetch_mods f rs sched = .error e4 := by
  constructor
  · obtain ⟨F0, rfl⟩ : ∃ F0, F = F0 + 1 := by
      cases F with
      | zero => cases hF
      | succ F0 => exact ⟨F0, rfl⟩
    have hsd : s ∈ mods.dedup := List.mem_dedup.mpr hs
    have hne : ¬ mods.dedup.isEmpty := by
      rcases hd : mods.dedup with _ | ⟨a, t⟩
      · rw [hd] at hsd
        cases hsd
      · simp
    obtain ⟨e2, hb⟩ := batchResolve_error p u iF mods.dedup s e hsd herr
    exact ⟨e2, by rw [resolve_mods, resolveModsLoop, if_neg hne, hb]⟩
  · intro f rs sched i e3 hperm hf
    apply tryCollect_error
    refine ⟨.error e3, ?_, e3, rfl⟩
    rw [List.mem_map]
    exact ⟨i, hperm.mem_iff.mpr (List.mem_finRange i), by rw [hf]⟩

/-- Witness for C8: a one-element resolve batch whose provider errors, and a
one-element fetch batch whose fetch errors. -/
theorem batch_aborts_on_first_error_witness :
    (∃ e2, resolve_mods (fun _ _ => .error "boom") false 1 1 [⟨"A"⟩] = some (.error e2))
    ∧ (∃ e4, fetch_mods (fun _ => .error "down") [⟨"r"⟩] [⟨0, by decide⟩] = .error e4) := by
  have h := batch_aborts_on_first_error (fun _ _ => .error "boom") false 1 1
    [⟨"A"⟩] ⟨"A"⟩ "boom" (by simp) (by rfl) (by decide)
  exact ⟨h.1, h.2 (fun _ => .error "down") [⟨"r"⟩] [⟨0, by decide⟩] ⟨0, by decide⟩
    "down" (by decide) rfl⟩

/-- C2 counterexample provider: spec A resolves (in one step, no redirects)
to an info whose precise spec is X and whose only suggested dependency is X;
every other spec resolves to itself with no dependencies.  The dependency
graph is finite and acyclic: A suggests X, X suggests nothing. -/
def depNormProviderCex : ResolveStep := fun s _ =>
  if s.url = "A" then
    .ok (.resolve
      { provider := "w"
        name := "A"
        spec := ⟨"X"⟩
        versions := []
        status := .unresolvable "A"
        suggested_require := false
        suggested_dependencies := [⟨"X"⟩] })
  else
    .ok (.resolve
      { provider := "w"
        name := s.url
        spec := s
        versions := []
        status := .unresolvable s.url
        suggested_require := false
        suggested_dependencies := [] })

/-- The info A resolves to under depNormProviderCex. -/
def depNormInfoA : ModInfo :=
  { provider := "w"
    name := "A"
    spec := ⟨"X"⟩
    versions := []
    status := .unresolvable "A"
    suggested_require := false
    suggested_dependencies := [⟨"X"⟩] }

/-- The info X would resolve to under depNormProviderCex (never queried). -/
def depNormInfoX : ModInfo :=
  { provider := "w"
    name := "X"
    spec := ⟨"X"⟩
    versions := []
    status := .unresolvable "X"
    suggested_require := false
    suggested_dependencies := [] }

/-- C2 nontermination provider: A resolves (in one step, no redirects) to an
info whose precise spec is A with the single suggested dependency B; every
other spec resolves (in one step) to an info whose precise spec is Bp with
no dependencies.  The dependency graph is finite and acyclic: A suggests B,
B suggests nothing. -/
def nonTermInfoA : ModInfo :=
  { provider := "w"
    name := "A"
    spec := ⟨"A"⟩
    versions := []
    status := .unresolvable "A"
    suggested_require := false
    suggested_dependencies := [⟨"B"⟩] }

/-- The info every non-A spec resolves to under nonTermProvider: its precise
spec Bp differs from the queried spec B. -/
def nonTermInfoB : ModInfo :=
  { provider := "w"
    name := "B"
    spec := ⟨"Bp"⟩
    versions := []
    status := .unresolvable "B"
    suggested_require := false
    suggested_dependencies := [] }

def nonTermProvider : ResolveStep := fun s _ =>
  if s.url = "A" then .ok (.resolve nonTermInfoA) else .ok (.resolve nonTermInfoB)

/-- After two passes of resolve_mods on [A] under nonTermProvider the state
is a fixpoint with pending set [B]: B is a suggested dependency, its
resolved spec Bp (not B) is what enters the precise set, so B is re-added
to the pending set on every pass and the loop exhausts any fuel. -/
theorem nonTermProvider_loop_stuck :
    ∀ k, resolveModsLoop nonTermProvider false 1 k
      [((⟨"A"⟩ : ModSpecification), nonTermInfoA),
        ((⟨"B"⟩ : ModSpecification), nonTermInfoB)]
      [⟨"Bp"⟩, ⟨"A"⟩] [⟨"B"⟩] = none := by
  intro k
  induction k with
  | zero => rfl
  | succ k ih =>
    have hstep : resolveModsLoop nonTermProvider false 1 (k + 1)
        [((⟨"A"⟩ : ModSpecification), nonTermInfoA),
          ((⟨"B"⟩ : ModSpecification), nonTermInfoB)]
        [⟨"Bp"⟩, ⟨"A"⟩] [⟨"B"⟩]
        = resolveModsLoop nonTermProvider false 1 k
        [((⟨"A"⟩ : ModSpecification), nonTermInfoA),
          ((⟨"B"⟩ : ModSpecification), nonTermInfoB)]
        [⟨"Bp"⟩, ⟨"A"⟩] [⟨"B"⟩] := rfl
    rw [hstep]
    exact ih

/-- C2 counterexample.  Closure half: on the finite acyclic graph A suggests
X, X suggests nothing (no redirects), resolve_mods terminates with the
singleton map for A, whose info lists the dependency X, yet X is not a key
of the returned map: the loop filters dependencies against the precise-spec
set (which received X as A's resolved spec), not against the map keys, so X
is never resolved.  Termination half: on the finite acyclic graph A suggests
B, B suggests nothing, where every spec resolves in one step without
redirects or errors, resolve_mods of [A] returns none (fuel exhausted) for
every fuel — the source loop never terminates, because B's resolved spec Bp
enters the precise set instead of B and B is re-added to the pending set on
every pass. -/
theorem resolve_mods_closure_termination_counterexample :
    resolve_mods depNormProviderCex false 1 2 [⟨"A"⟩]
      = some (.ok [(⟨"A"⟩, depNormInfoA)])
    ∧ ⟨"X"⟩ ∈ depNormInfoA.suggested_dependencies
    ∧ lookupMap [((⟨"A"⟩ : ModSpecification), depNormInfoA)] ⟨"X"⟩ = none
    ∧ depNormProviderCex ⟨"X"⟩ false = .ok (.resolve depNormInfoX)
    ∧ depNormInfoX.suggested_dependencies = []
    ∧ (∀ F, resolve_mods nonTermProvider false 1 F [⟨"A"⟩] = none)
    ∧ (∀ s u2, ∃ m, nonTermProvider s u2 = .ok (.resolve m))
    ∧ nonTermInfoA.suggested_dependencies = [⟨"B"⟩]
    ∧ nonTermProvider ⟨"B"⟩ false = .ok (.resolve nonTermInfoB)
    ∧ nonTermInfoB.suggested_dependencies = [] := by
  refine ⟨by rfl, by simp [depNormInfoA], by rfl, by rfl, rfl, ?_, ?_, rfl, by rfl, rfl⟩
  · intro F
    match F with
    | 0 => rfl
    | 1 => rfl
    | F + 2 =>
      have hunfold : resolve_mods nonTermProvider false 1 (F + 2) [⟨"A"⟩]
          = resolveModsLoop nonTermProvider false 1 F
          [((⟨"A"⟩ : ModSpecification), nonTermInfoA),
            ((⟨"B"⟩ : ModSpecification), nonTermInfoB)]
          [⟨"Bp"⟩, ⟨"A"⟩] [⟨"B"⟩] := rfl
      rw [hunfold]
      exact nonTermProvider_loop_stuck F
  · intro s u2
    by_cases hs : s.url = "A"
    · exact ⟨nonTermInfoA, by simp [nonTermProvider, hs]⟩
    · exact ⟨nonTermInfoB, by simp [nonTermProvider, hs]⟩

theorem filter_measure_lt (U precise precise2 : List ModSpecification)
    (hsub : ∀ x ∈ precise, x ∈ precise2) (d : ModSpecification)
    (hdU : d ∈ U) (hdp : d ∉ precise) (hdp2 : d ∈ precise2) :
    (U.filter (fun x => !decide (x ∈ precise2))).length
      < (U.filter (fun x => !decide (x ∈ precise))).length := by
  have hsubl : List.Sublist (U.filter (fun x => !decide (x ∈ precise2)))
      (U.filter (fun x => !decide (x ∈ precise))) := by
    apply List.monotone_filter_right
    intro a ha
    simp only [Bool.not_eq_true', decide_eq_false_iff_not] at ha ⊢
    exact fun hmem => ha (hsub a hmem)
  have hdmem : d ∈ U.filter (fun x => !decide (x ∈ precise)) :=
    List.mem_filter.mpr ⟨hdU, by simp [hdp]⟩
  apply Nat.lt_of_le_of_ne hsubl.length_le
  intro heq
  have hlist := hsubl.eq_of_length heq
  rw [← hlist] at hdmem
  have := (List.mem_filter.mp hdmem).2
  simp [hdp2] at this

theorem loop_term (p : ResolveStep) (u : Bool) (iF : Nat) (U : List ModSpecification)
    (hTot : ∀ s, resolveModAux p u iF s ≠ none)
    (hU : ∀ s m, resolveModAux p u iF s = some (.ok m) →
      ∀ d ∈ m.suggested_dependencies, d ∈ U)
    (hSelf : ∀ s m d dm, resolveModAux p u iF s = some (.ok m) →
      d ∈ m.suggested_dependencies → resolveModAux p u iF d = some (.ok dm) →
      dm.spec = d) :
    ∀ (k : Nat) (map : List (ModSpecification × ModInfo))
      (precise : List ModSpecification),
    wfEntries p u iF map →
    (U.filter (fun x => !decide (x ∈ precise))).length ≤ k →
    (resolveModsLoop p u iF (k + 1) map precise (computeNext map precise)).isSome := by
  intro k
  induction k with
  | zero =>
    intro map precise hwf hmeas
    rcases hto : computeNext map precise with _ | ⟨d, t⟩
    · simp [resolveModsLoop]
    · exfalso
      have hd : d ∈ computeNext map precise := by rw [hto]; simp
      rw [mem_computeNext] at hd
      obtain ⟨⟨e0, he0, hdep⟩, hnp⟩ := hd
      have hdU : d ∈ U := hU e0.1 e0.2 (hwf e0 he0) d hdep
      have hdmem : d ∈ U.filter (fun x => !decide (x ∈ precise)) :=
        List.mem_filter.mpr ⟨hdU, by simp [hnp]⟩
      have hpos : 0 < (U.filter (fun x => !decide (x ∈ precise))).length :=
        List.length_pos.mpr (List.ne_nil_of_mem hdmem)
      omega
  | succ k ih =>
    intro map precise hwf hmeas
    rcases hto : computeNext map precise with _ | ⟨d, t⟩
    · simp [resolveModsLoop]
    · rw [resolveModsLoop]
      have hne : ¬ (d :: t).isEmpty := by simp
      rw [if_neg hne]
      rcases hb : batchResolve p u iF (d :: t) with _ | res
      · exact absurd hb (batchResolve_total p u iF hTot (d :: t))
      · rcases res with e | pairs
        · simp
        · obtain ⟨hkeys, hpwf⟩ := batchResolve_ok p u iF (d :: t) pairs hb
          have hdmem : d ∈ computeNext map precise := by rw [hto]; simp
          rw [mem_computeNext] at hdmem
          obtain ⟨⟨e0, he0, hdep⟩, hnp⟩ := hdmem
          have hdU : d ∈ U := hU e0.1 e0.2 (hwf e0 he0) d hdep
          obtain ⟨md, hmdmem, hmdres⟩ :
              ∃ md, (d, md) ∈ pairs ∧ resolveModAux p u iF d = some (.ok md) := by
            cases pairs with
            | nil => simp at hkeys
            | cons ep tp =>
              simp at hkeys
              obtain ⟨hep, _⟩ := hkeys
              refine ⟨ep.2, ?_, ?_⟩
              · rw [show (d, ep.2) = ep from by rw [← hep]]
                simp
              · have := hpwf ep (by simp)
                rw [hep] at this
                exact this
          have hspec : md.spec = d :=
            hSelf e0.1 e0.2 d md (hwf e0 he0) hdep hmdres
          have hwf2 : wfEntries p u iF (insertAllMap map pairs) :=
            wfEntries_insertAllMap p u iF pairs map hwf hpwf
          have hdp2 : d ∈ insertAllPrecise precise pairs :=
            (mem_insertAllPrecise pairs precise d).mpr
              (Or.inr ⟨(d, md), hmdmem, hspec⟩)
          have hsub : ∀ x ∈ precise, x ∈ insertAllPrecise precise pairs :=
            fun x hx => (mem_insertAllPrecise pairs precise x).mpr (Or.inl hx)
          have hmeas2 :
              ((U.filter (fun x => !decide (x ∈ insertAllPrecise precise pairs))).length ≤ k) := by
            have := filter_measure_lt U precise (insertAllPrecise precise pairs)
              hsub d hdU hnp hdp2
            omega
          exact ih (insertAllMap map pairs) (insertAllPrecise precise pairs) hwf2 hmeas2

/-- The precise set only records precise specs of infos present in the map. -/
def invPrecise (map : List (ModSpecification × ModInfo))
    (precise : List ModSpecification) : Prop :=
  ∀ x ∈ precise, ∃ e ∈ map, e.2.spec = x

/-- Every dependency of every mapped info is in the precise set or pending. -/
def depsCov (map : List (ModSpecification × ModInfo))
    (precise pending : List ModSpecification) : Prop :=
  ∀ e ∈ map, ∀ d ∈ e.2.suggested_dependencies, d ∈ precise ∨ d ∈ pending

theorem loop_closure (p : ResolveStep) (u : Bool) (iF : Nat) :
    ∀ (F : Nat) (map : List (ModSpecification × ModInfo))
      (precise pending : List ModSpecification)
      (r : List (ModSpecification × ModInfo)),
    resolveModsLoop p u iF F map precise pending = some (.ok r) →
    wfEntries p u iF map → invPrecise map precise → depsCov map precise pending →
    ∀ e ∈ r, ∀ d ∈ e.2.suggested_dependencies,
      (lookupMap r d).isSome ∨ ∃ e2 ∈ r, e2.2.spec = d := by
  intro F
  induction F with
  | zero =>
    intro map precise pending r h hwf hinv hcov
    by_cases hp : pending.isEmpty
    · simp [resolveModsLoop, hp] at h
      subst h
      intro e he d hd
      rcases hcov e he d hd with hdp | hdp
      · exact Or.inr (hinv d hdp)
      · rw [List.isEmpty_iff.mp hp] at hdp
        cases hdp
    · simp [resolveModsLoop, hp] at h
  | succ F ih =>
    intro map precise pending r h hwf hinv hcov
    by_cases hp : pending.isEmpty
    · simp [resolveModsLoop, hp] at h
      subst h
      intro e he d hd
      rcases hcov e he d hd with hdp | hdp
      · exact Or.inr (hinv d hdp)
      · rw [List.isEmpty_iff.mp hp] at hdp
        cases hdp
    · rw [resolveModsLoop, if_neg hp] at h
      rcases hb : batchResolve p u iF pending with _ | res
      · rw [hb] at h
        cases h
      · rcases res with e | pairs
        · rw [hb] at h
          cases h
        · rw [hb] at h
          obtain ⟨hkeys, hpwf⟩ := batchResolve_ok p u iF pending pairs hb
          have hwf2 : wfEntries p u iF (insertAllMap map pairs) :=
            wfEntries_insertAllMap p u iF pairs map hwf hpwf
          have hinv2 : invPrecise (insertAllMap map pairs)
              (insertAllPrecise precise pairs) := by
            intro x hx
            rcases (mem_insertAllPrecise pairs precise x).mp hx with hx0 | ⟨e2, he2, hsp⟩
            · obtain ⟨e0, he0, hs0⟩ := hinv x hx0
              exact ⟨e0, mem_insertAllMap_preserved p u iF pairs map hwf hpwf e0 he0, hs0⟩
            · exact ⟨e2, mem_insertAllMap_of_mem_pairs p u iF pairs map hwf hpwf e2 he2, hsp⟩
          have hcov2 : depsCov (insertAllMap map pairs) (insertAllPrecise precise pairs)
              (computeNext (insertAllMap map pairs) (insertAllPrecise precise pairs)) := by
            intro e2 he2 d hd
            by_cases hdp : d ∈ insertAllPrecise precise pairs
            · exact Or.inl hdp
            · exact Or.inr ((mem_computeNext _ _ d).mpr ⟨⟨e2, he2, hd⟩, hdp⟩)
          exact ih _ _ _ r h hwf2 hinv2 hcov2

/-- C2 amended: the claim as stated fails (see the counterexample); what the
loop guarantees is: (termination) when every redirect chain resolves within
the inner fuel, all suggested dependencies lie in a finite universe U, and
every suggested dependency resolves to an info whose precise spec equals the
dependency itself, resolve_mods completes within U.length + 2 passes; and
(closure) on any successful run, every dependency listed in any returned
info is either a key of the returned map or the precise spec of some
returned info. -/
theorem resolve_mods_termination_and_closure (p : ResolveStep) (u : Bool) (iF : Nat)
    (U mods : List ModSpecification)
    (hTot : ∀ s, resolveModAux p u iF s ≠ none)
    (hU : ∀ s m, resolveModAux p u iF s = some (.ok m) →
      ∀ d ∈ m.suggested_dependencies, d ∈ U)
    (hSelf : ∀ s m d dm, resolveModAux p u iF s = some (.ok m) →
      d ∈ m.suggested_dependencies → resolveModAux p u iF d = some (.ok dm) →
      dm.spec = d) :
    (resolve_mods p u iF (U.length + 2) mods).isSome
    ∧ ∀ (F : Nat) (r : List (ModSpecification × ModInfo)),
        resolve_mods p u iF F mods = some (.ok r) →
        ∀ s m d, lookupMap r s = some m → d ∈ m.suggested_dependencies →
          (lookupMap r d).isSome ∨ ∃ e2 ∈ r, e2.2.spec = d := by
  constructor
  · rw [resolve_mods]
    rcases hm : mods.dedup with _ | ⟨a, t⟩
    · simp [resolveModsLoop]
    · rw [resolveModsLoop]
      have hne : ¬ (a :: t).isEmpty := by simp
      rw [if_neg hne]
      rcases hb : batchResolve p u iF (a :: t) with _ | res
      · exact absurd hb (batchResolve_total p u iF hTot (a :: t))
      · rcases res with e | pairs
        · simp
        · obtain ⟨hkeys, hpwf⟩ := batchResolve_ok p u iF (a :: t) pairs hb
          have hwf2 : wfEntries p u iF (insertAllMap [] pairs) :=
            wfEntries_insertAllMap p u iF pairs [] (fun e he => by cases he) hpwf
          apply loop_term p u iF U hTot hU hSelf U.length _ _ hwf2
          exact List.length_filter_le _ U
  · intro F r h s m d hlook hd
    have hmem : (s, m) ∈ r := mem_of_lookupMap_eq_some r s m hlook
    exact loop_closure p u iF F [] [] mods.dedup r h
      (fun e he => by cases he) (fun x hx => by cases hx) (fun e he => by cases he)
      (s, m) hmem d hd

/-- Witness provider for C2 amended: every spec resolves to itself in one
step; A suggests B, everything else suggests nothing. -/
def selfDepInfo (s : ModSpecification) : ModInfo :=
  { provider := "w"
    name := s.url
    spec := s
    versions := []
    status := .unresolvable s.url
    suggested_require := false
    suggested_dependencies := if s.url = "A" then [⟨"B"⟩] else [] }

def selfDepProvider : ResolveStep := fun s _ => .ok (.resolve (selfDepInfo s))

/-- Witness for C2 amended: with universe U = [B], resolve_mods of [A]
completes within U.length + 2 passes, and the dependency B of the returned
info for A is a key of the returned map. -/
theorem resolve_mods_termination_and_closure_witness :
    (resolve_mods selfDepProvider false 1 3 [⟨"A"⟩]).isSome
    ∧ ((lookupMap [((⟨"A"⟩ : ModSpecification), selfDepInfo ⟨"A"⟩),
          ((⟨"B"⟩ : ModSpecification), selfDepInfo ⟨"B"⟩)] ⟨"B"⟩).isSome
        ∨ ∃ e2 ∈ [((⟨"A"⟩ : ModSpecification), selfDepInfo ⟨"A"⟩),
            ((⟨"B"⟩ : ModSpecification), selfDepInfo ⟨"B"⟩)], e2.2.spec = ⟨"B"⟩) := by
  have h := resolve_mods_termination_and_closure selfDepProvider false 1
    [⟨"B"⟩] [⟨"A"⟩]
    (by intro s; simp [resolveModAux, selfDepProvider])
    (by
      intro s m hm d hd
      simp [resolveModAux, selfDepProvider] at hm
      subst hm
      simp only [selfDepInfo] at hd
      by_cases hs : s.url = "A"
      · rw [if_pos hs] at hd
        simpa using hd
      · rw [if_neg hs] at hd
        cases hd)
    (by
      intro s m d dm hm hd hdm
      simp [resolveModAux, selfDepProvider] at hdm
      subst hdm
      rfl)
  exact ⟨h.1, h.2 3
    [((⟨"A"⟩ : ModSpecification), selfDepInfo ⟨"A"⟩),
      ((⟨"B"⟩ : ModSpecification), selfDepInfo ⟨"B"⟩)]
    (by rfl) ⟨"A"⟩ (selfDepInfo ⟨"A"⟩) ⟨"B"⟩ (by rfl) (by simp [selfDepInfo])⟩

end Mint
